import Mathlib

/-!
Verification development for the trippy toolchain.

The definitions below are a shallow embedding of the two core source files:

* src/parser/src/lib.rs   (the chumsky-based parser, crate trippy)
* src/compiler-core/src/lib.rs  (the cranelift-based IR builder)

The IR builder is modelled by explicit state passing: every call made on the
cranelift FunctionBuilder or Module is recorded, in order, as an Event, and
the fallible parts (the expect and unimplemented aborts of the Rust code)
are modelled with Except.  Machine floats (f64) are modelled as exact
rationals; the pointer type of the 64-bit JIT host is modelled as the
64-bit integer type, matching module.target_config().pointer_type() there.
-/

namespace Trippy

/-- The cranelift value types that the lowering uses: types::I64 and
types::F64. -/
inductive Ty where
  | i64
  | f64
deriving DecidableEq, Repr

/-- Linkage of a declared symbol: Linkage::Export, Linkage::Import,
Linkage::Local. -/
inductive Linkage where
  | exportLink
  | importLink
  | localLink
deriving DecidableEq, Repr

/-- A cranelift signature: parameter types and return types
(AbiParam lists). -/
structure Sig where
  params : List Ty
  returns : List Ty
deriving DecidableEq, Repr

/-- The SSA values produced by builder instructions.  Each constructor
records which builder call produced the value:  ins().iconst,
ins().f64const, ins().symbol_value on an anonymous data object,
use_var on a variable slot, or the i-th result of the n-th call
instruction. -/
inductive Value where
  | iconst (ty : Ty) (v : Int)
  | f64const (v : ℚ)
  | symbolValue (dataId : Nat)
  | useVar (slot : Nat)
  | callResult (callId : Nat) (i : Nat)
deriving DecidableEq, Repr

/-- One call made on the FunctionBuilder / Module, in program order.
Blocks are identified by their creation index. -/
inductive Event where
  | createBlock (b : Nat)
  | appendBlockParams (b : Nat)
  | switchTo (b : Nat)
  | seal (b : Nat)
  | jump (b : Nat)
  | brz (c : Value) (b : Nat)
  | iconst (ty : Ty) (v : Int)
  | f64const (v : ℚ)
  | declareFunc (name : String) (link : Linkage) (sig : Sig)
  | callIns (callee : String) (args : List Value)
  | defineData (dataId : Nat) (contents : String)
  | symbolValue (dataId : Nat)
  | declareVar (slot : Nat) (ty : Ty)
  | defVar (slot : Nat) (v : Value)
  | useVar (slot : Nat)
  | returnIns (vs : List Value)
deriving DecidableEq, Repr

/-- The aborts of the Rust lowering: the expect on an undefined variable
reference, the unimplemented aborts for Array and Object, and the
(hypothetical) out-of-bounds read of inst_results in translate_call. -/
inductive Err where
  | varNotDefined (name : String)
  | notImplemented
  | callResultOOB
deriving DecidableEq, Repr

/-- The mutable compilation state threaded through the lowering: the
fresh-block counter, the anonymous-data counter, the call counter and
jit.variables (the BTreeMap from name to cranelift Variable index,
modelled as an association list that is only ever extended with names
not already present). -/
structure St where
  nextBlock : Nat
  nextData : Nat
  nextCall : Nat
  vars : List (String × Nat)
deriving DecidableEq, Repr

/-- The state of a freshly constructed JIT (JIT::new): empty variable
table, no blocks, data or calls yet. -/
def initState : St := ⟨0, 0, 0, []⟩

/-- jit.num: the pointer type of the module target.  On the 64-bit JIT
host this is the 64-bit integer type. -/
def numTy : Ty := Ty.i64

/-- VariableScope from the parser crate. -/
inductive VariableScope where
  | Let
  | Const
deriving DecidableEq, Repr

/-- Instruction, the parsed AST node (src/parser/src/lib.rs).  The f64
payload of NumericLiteral is modelled as an exact rational; the Object
payload (a BTreeMap) is modelled as a key-sorted association list.
The source constructor named Variable is called varDecl here because
the word variable is reserved in Lean. -/
inductive Instruction where
  | stringLiteral (s : String)
  | numericLiteral (v : ℚ)
  | booleanLiteral (b : Bool)
  | functionCall (name : String) (args : List Instruction)
  | array (items : List Instruction)
  | object (fields : List (String × Instruction))
  | varDecl (scope : VariableScope) (name : String) (value : Instruction)
  | variableReference (name : String)
  | whileBlock (condition : Instruction) (body : List Instruction)
deriving Repr

/-! ## String helpers: Rust str::contains, str::replace, str::ends_with -/

/-- Rust str::contains for string patterns: some position of the
haystack starts with the pattern. -/
def listContainsSub (hay : List Char) (pat : List Char) : Bool :=
  match hay with
  | [] => pat.isEmpty
  | _ :: t => pat.isPrefixOf hay || listContainsSub t pat

def strContains (s pat : String) : Bool :=
  listContainsSub s.data pat.data

/-- Rust str::replace: rewrite every leftmost non-overlapping occurrence
of the pattern.  Modelled for non-empty patterns (the code only uses the
pattern _ext). -/
def listReplace (s : List Char) (pat : List Char) (sub : List Char) : List Char :=
  match s with
  | [] => []
  | h :: t =>
    if hp : pat ≠ [] ∧ pat.isPrefixOf (h :: t) then
      sub ++ listReplace ((h :: t).drop pat.length) pat sub
    else
      h :: listReplace t pat sub
termination_by s.length
decreasing_by
  · have hlen : 1 ≤ pat.length := by
      cases pat with
      | nil => exact absurd rfl hp.1
      | cons a l => simp
    simp only [List.length_drop, List.length_cons]
    omega
  · simp

def strReplace (s pat sub : String) : String :=
  ⟨listReplace s.data pat.data sub.data⟩

/-- Rust str::ends_with, used to state the claims that speak about a
suffix (the code itself uses contains and replace). -/
def strEndsWith (s suffix : String) : Bool :=
  suffix.data.isSuffixOf s.data

/-! ## Numeric helpers: f64::trunc and the saturating as-i64 cast -/

/-- f64::trunc modelled on exact rationals: round toward zero. -/
def fTrunc (v : ℚ) : ℚ := ((v.num.tdiv (v.den : Int) : Int) : ℚ)

/-- The Rust cast expression (literal as i64): truncate toward zero and
saturate at the i64 bounds. -/
def f64AsI64 (v : ℚ) : Int :=
  max (-(2 ^ 63)) (min (2 ^ 63 - 1) (v.num.tdiv (v.den : Int)))

/-! ## The IR builder (src/compiler-core/src/lib.rs) -/

/-- The outcome of declare_variable: the returned Variable index, the
updated map, the updated slot counter and the builder calls made. -/
structure DeclareResult where
  var : Nat
  vars : List (String × Nat)
  index : Nat
  events : List Event
deriving Repr

/-- declare_variable (lines 501-515): build Variable::new(*index) first;
insert and declare it, and bump the counter, only when the name is not
yet present; return the freshly built Variable either way. -/
def declare_variable (int : Ty) (vars : List (String × Nat))
    (index : Nat) (name : String) : DeclareResult :=
  let var := index
  if (vars.lookup name).isSome then
    ⟨var, vars, index, []⟩
  else
    ⟨var, (name, var) :: vars, index + 1, [Event.declareVar var int]⟩

/-- create_anonymous_string (lines 160-183): stage the bytes, declare an
anonymous data object, define it, and take its address in the current
function with ins().symbol_value. -/
def create_anonymous_string (s : St) (stringContent : String) :
    Value × St × List Event :=
  let id := s.nextData
  (Value.symbolValue id, { s with nextData := id + 1 },
    [Event.defineData id stringContent, Event.symbolValue id])

mutual

/-- translate_expr (lines 186-246).  Returns the produced Value, the
updated state and the builder calls made, in order. -/
def translate_expr : Instruction → St → Except Err (Value × St × List Event)
  | .numericLiteral literal, s =>
    if fTrunc literal = literal then
      .ok (Value.iconst Ty.i64 (f64AsI64 literal), s,
        [Event.iconst Ty.i64 (f64AsI64 literal)])
    else
      .ok (Value.f64const literal, s, [Event.f64const literal])
  | .stringLiteral literal, s =>
    let contentWithTerminator := literal.push (Char.ofNat 0)
    .ok (create_anonymous_string s contentWithTerminator)
  | .booleanLiteral b, s =>
    let v : Int := if b then 1 else 0
    .ok (Value.iconst numTy v, s, [Event.iconst numTy v])
  | .functionCall name args, s =>
    translate_call name args (strContains name "_ext") s
  | .variableReference name, s =>
    match s.vars.lookup name with
    | some slot => .ok (Value.useVar slot, s, [Event.useVar slot])
    | none => .error (Err.varNotDefined name)
  | .array _, _ => .error Err.notImplemented
  | .object _, _ => .error Err.notImplemented
  | .varDecl _ name value, s =>
    let d := declare_variable numTy s.vars 0 name
    match translate_expr value { s with vars := d.vars } with
    | .error e => .error e
    | .ok (val, s2, ev1) =>
      .ok (Value.useVar d.var, s2,
        d.events ++ ev1 ++ [Event.defVar d.var val, Event.useVar d.var])
  | .whileBlock condition body, s => translate_while_loop condition body s
termination_by i _ => (sizeOf i, 0)

/-- translate_call (lines 370-405): synthesize the all-pointer signature
with a single return, declare the callee (imported with every _ext
occurrence removed when the name contains _ext, local under the
unchanged name otherwise), lower the arguments, emit the call, and read
the first result. -/
def translate_call (name : String) (args : List Instruction)
    (externFlag : Bool) (s : St) : Except Err (Value × St × List Event) :=
  let sig : Sig := ⟨args.map fun _ => numTy, [numTy]⟩
  let callee := if externFlag then strReplace name "_ext" "" else name
  let link := if externFlag then Linkage.importLink else Linkage.localLink
  match translate_args args s with
  | .error e => .error e
  | .ok (argValues, s1, ev1) =>
    let callId := s1.nextCall
    let s2 := { s1 with nextCall := callId + 1 }
    let results := (List.range sig.returns.length).map (Value.callResult callId)
    match results[0]? with
    | some v =>
      .ok (v, s2,
        Event.declareFunc callee link sig :: ev1 ++ [Event.callIns callee argValues])
    | none => .error Err.callResultOOB
termination_by (sizeOf args, 1)

/-- The argument loop of translate_call: lower each argument in order
and collect the values. -/
def translate_args : List Instruction → St → Except Err (List Value × St × List Event)
  | [], s => .ok ([], s, [])
  | a :: rest, s =>
    match translate_expr a s with
    | .error e => .error e
    | .ok (v, s1, e1) =>
      match translate_args rest s1 with
      | .error e => .error e
      | .ok (vs, s2, e2) => .ok (v :: vs, s2, e1 ++ e2)
termination_by l _ => (sizeOf l, 0)

/-- translate_while_loop (lines 334-368): create header, body and exit,
jump to and switch to the header, lower the condition there, branch if
zero to exit then jump to body, switch to and seal body, lower the body
statements, jump back to header, switch to exit, seal header and exit,
and yield an integer zero constant. -/
def translate_while_loop (condition : Instruction) (loopBody : List Instruction)
    (s : St) : Except Err (Value × St × List Event) :=
  let h := s.nextBlock
  let b := h + 1
  let x := h + 2
  let s0 := { s with nextBlock := h + 3 }
  match translate_expr condition s0 with
  | .error e => .error e
  | .ok (conditionValue, s1, ev1) =>
    match translate_list loopBody s1 with
    | .error e => .error e
    | .ok (s2, ev2) =>
      .ok (Value.iconst numTy 0, s2,
        [Event.createBlock h, Event.createBlock b, Event.createBlock x,
          Event.jump h, Event.switchTo h]
        ++ ev1
        ++ [Event.brz conditionValue x, Event.jump b, Event.switchTo b,
            Event.seal b]
        ++ ev2
        ++ [Event.jump h, Event.switchTo x, Event.seal h, Event.seal x,
            Event.iconst numTy 0])
termination_by (sizeOf condition + sizeOf loopBody, 0)
decreasing_by
  · have hb : 0 < sizeOf loopBody := by cases loopBody <;> simp
    exact Prod.Lex.left _ _ (by omega)
  · have hc : 0 < sizeOf condition := by cases condition <;> simp
    exact Prod.Lex.left _ _ (by omega)

/-- The statement loops of compile and translate_while_loop: lower each
instruction in order, discarding the values. -/
def translate_list : List Instruction → St → Except Err (St × List Event)
  | [], s => .ok (s, [])
  | i :: rest, s =>
    match translate_expr i s with
    | .error e => .error e
    | .ok (_, s1, e1) =>
      match translate_list rest s1 with
      | .error e => .error e
      | .ok (s2, e2) => .ok (s2, e1 ++ e2)
termination_by l _ => (sizeOf l, 0)

end

/-- The signature given to main in compile: no parameters, one
pointer-width return (signature.returns.push(AbiParam::new(jit.num))). -/
def mainSig : Sig := ⟨[], [numTy]⟩

/-- compile (lines 68-134): create the entry block, append the block
parameters for the (empty) function parameter list, switch to it and
seal it immediately, lower every top-level instruction in order, emit
iconst(I64, 0) and return it, then declare main with Export linkage and
finalize. -/
def compile (ast : List Instruction) (s : St) : Except Err (St × List Event) :=
  let entryBlock := s.nextBlock
  let s1 := { s with nextBlock := entryBlock + 1 }
  match translate_list ast s1 with
  | .error e => .error e
  | .ok (s2, ev) =>
    .ok (s2,
      [Event.createBlock entryBlock, Event.appendBlockParams entryBlock,
        Event.switchTo entryBlock, Event.seal entryBlock]
      ++ ev
      ++ [Event.iconst Ty.i64 0, Event.returnIns [Value.iconst Ty.i64 0],
          Event.declareFunc "main" Linkage.exportLink mainSig])

/-! ## Parser combinators

A small model of the chumsky combinators that the grammar uses.  A
parser maps the input characters to either failure or a value and the
rest of the input.  Diagnostics are not modelled: a parse that yields no
tree is simply none.  The alternation combinator tries its second
branch whenever the first fails, and repetition is greedy and stops as
soon as the inner parser fails or stops consuming, which is how the
chumsky operators behave for the (always-consuming) parsers this
grammar repeats. -/

def P (α : Type) : Type := List Char → Option (α × List Char)

def just (c : Char) : P Char := fun s =>
  match s with
  | c2 :: rest => if c2 = c then some (c, rest) else none
  | [] => none

def justStr (w : List Char) : P (List Char) := fun s =>
  if w.isPrefixOf s then some (w, s.drop w.length) else none

def filterP (f : Char → Bool) : P Char := fun s =>
  match s with
  | c :: rest => if f c then some (c, rest) else none
  | [] => none

def pmap (f : α → β) (p : P α) : P β := fun s =>
  (p s).map fun ar => (f ar.1, ar.2)

def pOr (p q : P α) : P α := fun s => (p s).orElse fun _ => q s

def pThen (p : P α) (q : P β) : P (α × β) := fun s =>
  match p s with
  | some (a, r1) =>
    match q r1 with
    | some (b, r2) => some ((a, b), r2)
    | none => none
  | none => none

def ignoreThen (p : P α) (q : P β) : P β := pmap Prod.snd (pThen p q)

def thenIgnore (p : P α) (q : P β) : P α := pmap Prod.fst (pThen p q)

def orNot (p : P α) : P (Option α) := fun s =>
  match p s with
  | some (a, r) => some (some a, r)
  | none => some (none, s)

def endP : P Unit := fun s => if s.isEmpty then some ((), s) else none

def wsChar (c : Char) : Bool := c.isWhitespace

/-- The padded combinator: whitespace is skipped on both sides. -/
def padded (p : P α) : P α := fun s =>
  match p (s.dropWhile wsChar) with
  | some (a, r) => some (a, r.dropWhile wsChar)
  | none => none

/-- delimited_by(l, r): the left delimiter, the pattern, the right
delimiter. -/
def delimitedBy (p : P α) (l r : P γ) : P α := ignoreThen l (thenIgnore p r)

/-- Greedy repetition, fuelled by the input length; iteration continues
only while the inner parser consumes input, which every repeated parser
of this grammar does. -/
def manyGo (p : P α) : Nat → List Char → List α × List Char
  | 0, s => ([], s)
  | fuel + 1, s =>
    match p s with
    | none => ([], s)
    | some (a, rest) =>
      if rest.length < s.length then
        let ar := manyGo p fuel rest
        (a :: ar.1, ar.2)
      else ([], s)

def manyP (p : P α) : P (List α) := fun s => some (manyGo p s.length s)

/-- separated_by(sep), with or without allow_trailing: zero or more
items; a separator not followed by an item is consumed only in trailing
position and only when trailing separators are allowed. -/
def sepBy (item : P α) (sep : P β) (allowTrailing : Bool) : P (List α) := fun s =>
  match item s with
  | none => some ([], s)
  | some (a, r1) =>
    match manyP (ignoreThen sep item) r1 with
    | some (rest, r2) =>
      if allowTrailing then
        match sep r2 with
        | some (_, r3) => some (a :: rest, r3)
        | none => some (a :: rest, r2)
      else some (a :: rest, r2)
    | none => none

/-! ## The grammar (src/parser/src/lib.rs, lines 72-230) -/

/-- text::ident(): a C-style identifier. -/
def identStart (c : Char) : Bool := c.isAlpha || c = '_'

def identCont (c : Char) : Bool := c.isAlphanum || c = '_'

def identP : P String := fun s =>
  match s with
  | c :: rest =>
    if identStart c then
      let tr := rest.span identCont
      some (String.mk (c :: tr.1), tr.2)
    else none
  | [] => none

def isHexDigitC (c : Char) : Bool :=
  c.isDigit || ('a' ≤ c && c ≤ 'f') || ('A' ≤ c && c ≤ 'F')

def hexVal (c : Char) : Nat :=
  if c.isDigit then c.toNat - 48
  else if 'a' ≤ c && c ≤ 'f' then c.toNat - 87
  else c.toNat - 55

/-- The \uXXXX escape tail: exactly four hex digits; char::from_u32
fails on surrogate values, for which the validate handler substitutes
U+FFFD (the recorded diagnostic is not modelled). -/
def hex4P : P Char := fun s =>
  match s with
  | a :: b :: c :: d :: rest =>
    if isHexDigitC a && isHexDigitC b && isHexDigitC c && isHexDigitC d then
      let n := ((hexVal a * 16 + hexVal b) * 16 + hexVal c) * 16 + hexVal d
      some (if 0xD800 ≤ n && n ≤ 0xDFFF then '�' else Char.ofNat n, rest)
    else none
  | _ => none

/-- The escape alternation, in source order. -/
def escapeP : P Char :=
  ignoreThen (just '\\')
    (pOr (just '\\')
      (pOr (just '/')
        (pOr (just '"')
          (pOr (pmap (fun _ => '\x08') (just 'b'))
            (pOr (pmap (fun _ => '\x0C') (just 'f'))
              (pOr (pmap (fun _ => '\n') (just 'n'))
                (pOr (pmap (fun _ => '\r') (just 'r'))
                  (pOr (pmap (fun _ => '\t') (just 't'))
                    (ignoreThen (just 'u') hex4P)))))))))

/-- quote: either a double or a single quote. -/
def quoteP : P Char := pOr (just '"') (just '\'')

def strBodyChar (c : Char) : Bool := c ≠ '\\' && c ≠ '"' && c ≠ '\''

/-- The string combinator: plain characters or escapes, repeated,
delimited by the quote parser on both sides. -/
def stringRawP : P String :=
  pmap String.mk
    (delimitedBy (manyP (pOr (filterP strBodyChar) escapeP)) quoteP quoteP)

/-- text::int(10): one or more digits without a leading zero, or the
single digit zero. -/
def intP : P (List Char) := fun s =>
  match s with
  | c :: rest =>
    if c.isDigit && c ≠ '0' then
      let tr := rest.span Char.isDigit
      some (c :: tr.1, tr.2)
    else if c = '0' then some (['0'], rest)
    else none
  | [] => none

/-- text::digits(10): one or more digits. -/
def digitsP : P (List Char) := fun s =>
  match s with
  | c :: rest =>
    if c.isDigit then
      let tr := rest.span Char.isDigit
      some (c :: tr.1, tr.2)
    else none
  | [] => none

def natOfDigits (ds : List Char) : Nat :=
  ds.foldl (fun acc c => acc * 10 + (c.toNat - 48)) 0

/-- The value of a decimal literal as an exact rational.  The rounding
of str::parse::<f64> to the nearest double is not modelled. -/
def decimalRat (ip fp : List Char) : ℚ :=
  (natOfDigits ip : ℚ) + (natOfDigits fp : ℚ) / ((10 : ℚ) ^ fp.length)

/-- num_literal: an integer part optionally chained with a dot and a
fraction part; the dot is consumed only when digits follow. -/
def numLiteralP : P Instruction := fun s =>
  match intP s with
  | none => none
  | some (ip, r1) =>
    match pThen (just '.') digitsP r1 with
    | some (dfp, r2) => some (.numericLiteral (decimalRat ip dfp.2), r2)
    | none => some (.numericLiteral (decimalRat ip []), r1)

/-- bool_literal: the keyword true or the keyword false, then
str::parse::<bool>. -/
def boolLiteralP : P Instruction :=
  pmap (fun w => Instruction.booleanLiteral (w == "true".data))
    (pOr (justStr "true".data) (justStr "false".data))

/-- BTreeMap insertion: keep the association list sorted by key, later
bindings replacing earlier ones. -/
def btreeInsert (m : List (String × Instruction)) (k : String) (v : Instruction) :
    List (String × Instruction) :=
  match m with
  | [] => [(k, v)]
  | (k2, v2) :: rest =>
    if k = k2 then (k, v) :: rest
    else if k < k2 then (k, v) :: (k2, v2) :: rest
    else (k2, v2) :: btreeInsert rest k v

def btreeOfList (l : List (String × Instruction)) : List (String × Instruction) :=
  l.foldl (fun m kv => btreeInsert m kv.1 kv.2) []

/-- value(): the recursive expression parser, as an alternation of
string literal, numeric literal, boolean literal, function call,
object, variable declaration and variable reference, in source order.
The self-reference is fuelled; every self-recursive position sits
behind at least one consumed character, so any fuel beyond the input
length is enough. -/
def valueP : Nat → P Instruction
  | 0 => fun _ => none
  | fuel + 1 =>
    let string_literal := pmap Instruction.stringLiteral stringRawP
    let fn_call :=
      pmap (fun na => Instruction.functionCall na.1 na.2)
        (pThen
          (pmap (fun parts => String.intercalate "." parts)
            (padded (sepBy identP (just '.') false)))
          (delimitedBy (sepBy (padded (valueP fuel)) (just ',') true)
            (just '(') (just ')')))
    let member :=
      pThen
        (padded (thenIgnore (padded (pOr stringRawP identP))
          (padded (just ':'))))
        (valueP fuel)
    let objectInner : P (List (String × Instruction)) := fun s =>
      match member s with
      | some (kv, r1) =>
        match manyP (ignoreThen (padded (just ',')) member) r1 with
        | some (kvs, r2) => some (kv :: kvs, r2)
        | none => none
      | none => some ([], s)
    let objectP :=
      pmap (fun kvs => Instruction.object (btreeOfList kvs))
        (delimitedBy (padded objectInner) (just '{') (just '}'))
    let variableP :=
      pmap (fun knv =>
          Instruction.varDecl
            (if knv.1.1 == "let".data then VariableScope.Let else VariableScope.Const)
            knv.1.2 knv.2)
        (pThen
          (thenIgnore
            (pThen (padded (pOr (justStr "let".data) (justStr "const".data)))
              (padded identP))
            (padded (just '=')))
          (padded (valueP fuel)))
    let variableReferenceP := pmap Instruction.variableReference (padded identP)
    pOr string_literal
      (pOr numLiteralP
        (pOr boolLiteralP
          (pOr fn_call
            (pOr objectP
              (pOr variableP variableReferenceP)))))

/-- block (lines 204-211): statements, each an expression with an
optional semicolon, padded and repeated, inside braces. -/
def blockP (fuel : Nat) : P (Option (List Instruction)) :=
  delimitedBy
    (orNot (padded (manyP (padded (thenIgnore (valueP fuel) (orNot (just ';')))))))
    (just '{') (just '}')

/-- while_block (lines 213-223): the while keyword, a parenthesized
condition, then a block. -/
def whileBlockP (fuel : Nat) : P Instruction :=
  pmap (fun cb => Instruction.whileBlock cb.1 (cb.2.getD []))
    (padded (pThen
      (padded (ignoreThen (padded (justStr "while".data))
        (delimitedBy (padded (valueP fuel)) (just '(') (just ')'))))
      (blockP fuel)))

/-- parser() (lines 203-230): repeated while blocks followed by end of
input.  The alternative that would accept a plain expression statement
is commented out in the source (line 226) and is therefore absent
here. -/
def parser (fuel : Nat) : P (List Instruction) :=
  thenIgnore (manyP (padded (whileBlockP fuel))) endP

/-- str::trim. -/
def trimChars (s : List Char) : List Char :=
  ((s.dropWhile wsChar).reverse.dropWhile wsChar).reverse

/-- parse (compiler-core lines 517-592): run the top-level parser on the
trimmed source with parse_recovery; when no tree is produced the driver
prints the diagnostics and exits, modelled as none. -/
def parse (src : String) : Option (List Instruction) :=
  let s := trimChars src.data
  match parser (s.length + 1) s with
  | some (ast, _) => some ast
  | none => none

/-! ## The Display implementation (src/parser/src/lib.rs, lines 34-70) -/

mutual

/-- The Display implementation for Instruction: string literals print
their raw contents, numbers print with the Rust default float format
(modelled for integral values; the shortest-digits rendering of
non-integral doubles is outside the rational model), booleans print as
keywords, calls print the name and the parenthesized arguments with no
separators, arrays print their items back to back, and the remaining
variants abort with unimplemented, modelled as none. -/
def fmt : Instruction → Option String
  | .stringLiteral v => some v
  | .numericLiteral v => if v.den = 1 then some (toString v.num) else none
  | .booleanLiteral v => some (if v then "true" else "false")
  | .functionCall name args =>
    match fmtArgs args with
    | some inner => some (name ++ "(" ++ inner ++ ")")
    | none => none
  | .array values => fmtArgs values
  | .variableReference _ => none
  | .object _ => none
  | .varDecl _ _ _ => none
  | .whileBlock _ _ => none
termination_by i => (sizeOf i, 1)

/-- The argument loop of the Display implementation: each argument is
written with no separator in between. -/
def fmtArgs : List Instruction → Option String
  | [] => some ""
  | i :: rest =>
    match fmt i with
    | some a =>
      match fmtArgs rest with
      | some b => some (a ++ b)
      | none => none
    | none => none
termination_by l => (sizeOf l, 0)

end

/-! ## The scoping discipline checked by claim C7

check_expr walks an instruction in exactly the order translate_expr
does, tracking which names have been declared: a Variable declaration
brings its name into scope before its initializer is walked, and a
VariableReference to a name not in scope fails. -/

mutual

def check_expr : Instruction → List String → Option (List String)
  | .stringLiteral _, env => some env
  | .numericLiteral _, env => some env
  | .booleanLiteral _, env => some env
  | .functionCall _ args, env => check_list args env
  | .array items, env => check_list items env
  | .object fields, env => check_fields fields env
  | .varDecl _ name value, env => check_expr value (name :: env)
  | .variableReference n, env => if n ∈ env then some env else none
  | .whileBlock c b, env =>
    match check_expr c env with
    | some env1 => check_list b env1
    | none => none
termination_by i _ => (sizeOf i, 0)
decreasing_by
  · exact Prod.Lex.left _ _ (by cases args <;> simp_arith)
  · exact Prod.Lex.left _ _ (by cases items <;> simp_arith)
  · exact Prod.Lex.left _ _ (by cases fields <;> simp_arith)
  · exact Prod.Lex.left _ _ (by simp_arith)
  · exact Prod.Lex.left _ _ (by simp_arith)
  · exact Prod.Lex.left _ _ (by simp_arith)

def check_list : List Instruction → List String → Option (List String)
  | [], env => some env
  | i :: rest, env =>
    match check_expr i env with
    | some env1 => check_list rest env1
    | none => none
termination_by l _ => (sizeOf l, 0)

def check_fields : List (String × Instruction) → List String → Option (List String)
  | [], env => some env
  | (_, v) :: rest, env =>
    match check_expr v env with
    | some env1 => check_fields rest env1
    | none => none
termination_by l _ => (sizeOf l, 0)

end

/-! ## Trace invariants of the lowering -/

/-- The aborts the lowering can actually raise: the unimplemented abort
and the undefined-variable abort.  The modelled out-of-bounds access on
the call results is never among them. -/
def eprop (e : Err) : Prop :=
  e = Err.notImplemented ∨ ∃ n, e = Err.varNotDefined n

/-- Trace invariants of one lowering step from state s to state s2
emitting ev: the block counter is monotone, sealed and created blocks
are fresh (at or above the incoming block counter), and no return
instruction is emitted. -/
def tprop (s s2 : St) (ev : List Event) : Prop :=
  s.nextBlock ≤ s2.nextBlock ∧
  (∀ b, Event.seal b ∈ ev → s.nextBlock ≤ b) ∧
  (∀ b, Event.createBlock b ∈ ev → s.nextBlock ≤ b) ∧
  (∀ vs, Event.returnIns vs ∉ ev)

theorem tprop_nil (s : St) : tprop s s [] :=
  ⟨le_refl _, fun _ h => absurd h (List.not_mem_nil _),
    fun _ h => absurd h (List.not_mem_nil _),
    fun _ h => absurd h (List.not_mem_nil _)⟩

theorem tprop_trans {s s1 s2 : St} {ev1 ev2 : List Event}
    (h1 : tprop s s1 ev1) (h2 : tprop s1 s2 ev2) : tprop s s2 (ev1 ++ ev2) := by
  obtain ⟨m1, sl1, cr1, rt1⟩ := h1
  obtain ⟨m2, sl2, cr2, rt2⟩ := h2
  refine ⟨le_trans m1 m2, ?_, ?_, ?_⟩
  · intro b hb
    rcases List.mem_append.mp hb with h | h
    · exact sl1 b h
    · exact le_trans m1 (sl2 b h)
  · intro b hb
    rcases List.mem_append.mp hb with h | h
    · exact cr1 b h
    · exact le_trans m1 (cr2 b h)
  · intro vs hv
    rcases List.mem_append.mp hv with h | h
    · exact rt1 vs h
    · exact rt2 vs h

/-- Events that are neither seals, block creations nor returns. -/
def harmless (e : Event) : Bool :=
  match e with
  | .seal _ => false
  | .createBlock _ => false
  | .returnIns _ => false
  | _ => true

theorem tprop_of_harmless {s s2 : St} (hle : s.nextBlock ≤ s2.nextBlock)
    {ev : List Event} (h : ∀ e ∈ ev, harmless e = true) : tprop s s2 ev := by
  refine ⟨hle, ?_, ?_, ?_⟩
  · intro b hb
    have := h _ hb
    simp [harmless] at this
  · intro b hb
    have := h _ hb
    simp [harmless] at this
  · intro vs hv
    have := h _ hv
    simp [harmless] at this

theorem declare_variable_harmless (int : Ty) (vars : List (String × Nat))
    (index : Nat) (name : String) :
    ∀ e ∈ (declare_variable int vars index name).events, harmless e = true := by
  unfold declare_variable
  split <;> simp [harmless]

/-- The master trace lemma, by mutual functional induction over the five
lowering functions: every raised error is one of the two genuine aborts,
and every successful step satisfies the trace invariants. -/
theorem translate_trace :
    (∀ i s,
      (∀ e, translate_expr i s = .error e → eprop e) ∧
      (∀ v s2 ev, translate_expr i s = .ok (v, s2, ev) → tprop s s2 ev)) ∧
    (∀ c b s,
      (∀ e, translate_while_loop c b s = .error e → eprop e) ∧
      (∀ v s2 ev, translate_while_loop c b s = .ok (v, s2, ev) → tprop s s2 ev)) ∧
    (∀ l s,
      (∀ e, translate_list l s = .error e → eprop e) ∧
      (∀ s2 ev, translate_list l s = .ok (s2, ev) → tprop s s2 ev)) ∧
    (∀ name args x s,
      (∀ e, translate_call name args x s = .error e → eprop e) ∧
      (∀ v s2 ev, translate_call name args x s = .ok (v, s2, ev) → tprop s s2 ev)) ∧
    (∀ l s,
      (∀ e, translate_args l s = .error e → eprop e) ∧
      (∀ vs s2 ev, translate_args l s = .ok (vs, s2, ev) → tprop s s2 ev)) := by
  apply translate_expr.mutual_induct
  · -- numeric literal, integral branch
    intro literal s h
    constructor
    · intro e heq
      simp [translate_expr, h] at heq
    · intro v s2 ev heq
      simp [translate_expr, h] at heq
      obtain ⟨-, h2, h3⟩ := heq
      subst h2; subst h3
      exact tprop_of_harmless (le_refl _) (by simp [harmless])
  · -- numeric literal, float branch
    intro literal s h
    constructor
    · intro e heq
      simp [translate_expr, h] at heq
    · intro v s2 ev heq
      simp [translate_expr, h] at heq
      obtain ⟨-, h2, h3⟩ := heq
      subst h2; subst h3
      exact tprop_of_harmless (le_refl _) (by simp [harmless])
  · -- string literal
    intro literal s
    constructor
    · intro e heq
      simp [translate_expr, create_anonymous_string] at heq
    · intro v s2 ev heq
      simp [translate_expr, create_anonymous_string] at heq
      obtain ⟨-, h2, h3⟩ := heq
      subst h2; subst h3
      exact tprop_of_harmless (le_refl _) (by simp [harmless])
  · -- boolean literal
    intro b s
    constructor
    · intro e heq
      simp [translate_expr] at heq
    · intro v s2 ev heq
      simp [translate_expr] at heq
      obtain ⟨-, h2, h3⟩ := heq
      subst h2; subst h3
      exact tprop_of_harmless (le_refl _) (by simp [harmless])
  · -- function call: delegate to translate_call
    intro name args s ih
    constructor
    · intro e heq
      simp only [translate_expr] at heq
      exact ih.1 e heq
    · intro v s2 ev heq
      simp only [translate_expr] at heq
      exact ih.2 v s2 ev heq
  · -- variable reference, defined
    intro name s slot hlk
    constructor
    · intro e heq
      simp [translate_expr, hlk] at heq
    · intro v s2 ev heq
      simp [translate_expr, hlk] at heq
      obtain ⟨-, h2, h3⟩ := heq
      subst h2; subst h3
      exact tprop_of_harmless (le_refl _) (by simp [harmless])
  · -- variable reference, undefined
    intro name s hlk
    constructor
    · intro e heq
      simp [translate_expr, hlk] at heq
      exact Or.inr ⟨name, heq.symm⟩
    · intro v s2 ev heq
      simp [translate_expr, hlk] at heq
  · -- array
    intro items s
    constructor
    · intro e heq
      simp [translate_expr] at heq
      exact Or.inl heq.symm
    · intro v s2 ev heq
      simp [translate_expr] at heq
  · -- object
    intro fields s
    constructor
    · intro e heq
      simp [translate_expr] at heq
      exact Or.inl heq.symm
    · intro v s2 ev heq
      simp [translate_expr] at heq
  · -- variable declaration, initializer fails
    intro scope name value s d e0 herr ih
    have hd : d = declare_variable numTy s.vars 0 name := rfl
    rw [hd] at herr
    constructor
    · intro e heq
      simp [translate_expr, herr] at heq
      subst heq
      exact ih.1 e0 herr
    · intro v s2 ev heq
      simp [translate_expr, herr] at heq
  · -- variable declaration, initializer succeeds
    intro scope name value s d val s2 ev1 hok ih
    have hd : d = declare_variable numTy s.vars 0 name := rfl
    rw [hd] at hok
    constructor
    · intro e heq
      simp [translate_expr, hok] at heq
    · intro v s2a ev heq
      simp [translate_expr, hok] at heq
      obtain ⟨-, h2, h3⟩ := heq
      subst h2; subst h3
      have hpre : tprop s { s with vars := (declare_variable numTy s.vars 0 name).vars }
          (declare_variable numTy s.vars 0 name).events :=
        tprop_of_harmless (le_refl _) (declare_variable_harmless _ _ _ _)
      have hmid := ih.2 _ _ _ hok
      have hpost : tprop s2 s2
          [Event.defVar (declare_variable numTy s.vars 0 name).var val,
            Event.useVar (declare_variable numTy s.vars 0 name).var] :=
        tprop_of_harmless (le_refl _) (by simp [harmless])
      exact tprop_trans hpre (tprop_trans hmid hpost)
  · -- while block: delegate to translate_while_loop
    intro condition body s ih
    constructor
    · intro e heq
      simp only [translate_expr] at heq
      exact ih.1 e heq
    · intro v s2 ev heq
      simp only [translate_expr] at heq
      exact ih.2 v s2 ev heq
  · -- while loop, condition fails
    intro condition loopBody s hh s0 e0 herr ih
    have hs0 : s0 = { s with nextBlock := s.nextBlock + 3 } := rfl
    rw [hs0] at herr
    constructor
    · intro e heq
      simp [translate_while_loop, herr] at heq
      subst heq
      exact ih.1 e0 herr
    · intro v s2 ev heq
      simp [translate_while_loop, herr] at heq
  · -- while loop, body list fails
    intro condition loopBody s hh s0 val s1 ev1 hok e0 herr ihc ihl
    have hs0 : s0 = { s with nextBlock := s.nextBlock + 3 } := rfl
    rw [hs0] at hok
    constructor
    · intro e heq
      simp [translate_while_loop, hok, herr] at heq
      subst heq
      exact ihl.1 e0 herr
    · intro v s2 ev heq
      simp [translate_while_loop, hok, herr] at heq
  · -- while loop, both succeed
    intro condition loopBody s hh s0 val s1 ev1 hok s2 ev2 hlist ihc ihl
    have hs0 : s0 = { s with nextBlock := s.nextBlock + 3 } := rfl
    rw [hs0] at hok
    constructor
    · intro e heq
      simp [translate_while_loop, hok, hlist] at heq
    · intro v s2a ev heq
      simp [translate_while_loop, hok, hlist] at heq
      obtain ⟨-, h2, h3⟩ := heq
      subst h2; subst h3
      obtain ⟨m1, sl1, cr1, rt1⟩ := ihc.2 _ _ _ hok
      have m1n : s.nextBlock + 3 ≤ s1.nextBlock := m1
      have sl1n : ∀ b, Event.seal b ∈ ev1 → s.nextBlock + 3 ≤ b := sl1
      have cr1n : ∀ b, Event.createBlock b ∈ ev1 → s.nextBlock + 3 ≤ b := cr1
      obtain ⟨m2, sl2, cr2, rt2⟩ := ihl.2 _ _ hlist
      refine ⟨?_, ?_, ?_, ?_⟩
      · omega
      · intro b hb
        simp [List.mem_append] at hb
        rcases hb with h | h | h | h | h
        · have := sl1n b h; omega
        · omega
        · have := sl2 b h; omega
        · omega
        · omega
      · intro b hb
        simp [List.mem_append] at hb
        rcases hb with h | h | h | h | h
        · omega
        · omega
        · omega
        · have := cr1n b h; omega
        · have := cr2 b h; omega
      · intro vs hv
        simp [List.mem_append] at hv
        rcases hv with h | h
        · exact rt1 vs h
        · exact rt2 vs h
  · -- statement list, empty
    intro s
    constructor
    · intro e heq
      simp [translate_list] at heq
    · intro s2 ev heq
      simp [translate_list] at heq
      obtain ⟨h2, h3⟩ := heq
      subst h2; subst h3
      exact tprop_nil s
  · -- statement list, head fails
    intro a rest s e0 herr ih
    constructor
    · intro e heq
      simp [translate_list, herr] at heq
      subst heq
      exact ih.1 e0 herr
    · intro s2 ev heq
      simp [translate_list, herr] at heq
  · -- statement list, tail fails
    intro a rest s val s1 ev1 hok e0 herr ih ihl
    constructor
    · intro e heq
      simp [translate_list, hok, herr] at heq
      subst heq
      exact ihl.1 e0 herr
    · intro s2 ev heq
      simp [translate_list, hok, herr] at heq
  · -- statement list, both succeed
    intro a rest s val s1 ev1 hok s2 ev2 hlist ih ihl
    constructor
    · intro e heq
      simp [translate_list, hok, hlist] at heq
    · intro s2a ev heq
      simp [translate_list, hok, hlist] at heq
      obtain ⟨h2, h3⟩ := heq
      subst h2; subst h3
      exact tprop_trans (ih.2 _ _ _ hok) (ihl.2 _ _ hlist)
  · -- call, argument lowering fails
    intro name args externFlag s e0 herr ih
    constructor
    · intro e heq
      simp [translate_call, herr] at heq
      subst heq
      exact ih.1 e0 herr
    · intro v s2 ev heq
      simp [translate_call, herr] at heq
  · -- call, arguments succeed, first result exists
    intro name args externFlag s sg argValues s1 ev1 hargs callId results v0 hres ih
    have hr : results
        = (List.range sg.returns.length).map (Value.callResult callId) := rfl
    rw [hr] at hres
    constructor
    · intro e heq
      simp [translate_call, hargs, hres] at heq
    · intro v s2 ev heq
      simp [translate_call, hargs, hres] at heq
      obtain ⟨-, h2, h3⟩ := heq
      subst h2; subst h3
      obtain ⟨m1, sl1, cr1, rt1⟩ := ih.2 _ _ _ hargs
      refine ⟨by simpa using m1, ?_, ?_, ?_⟩
      · intro b hb
        simp [List.mem_append] at hb
        exact sl1 b hb
      · intro b hb
        simp [List.mem_append] at hb
        exact cr1 b hb
      · intro vs hv
        simp [List.mem_append] at hv
        exact rt1 vs hv
  · -- call, arguments succeed, first result missing: impossible
    intro name args externFlag s sg argValues s1 ev1 hargs callId results hres ih
    have hr : results
        = (List.range sg.returns.length).map (Value.callResult callId) := rfl
    have hsg : sg = (⟨args.map fun _ => numTy, [numTy]⟩ : Sig) := rfl
    rw [hr, hsg] at hres
    simp at hres
  · -- argument list, empty
    intro s
    constructor
    · intro e heq
      simp [translate_args] at heq
    · intro vs s2 ev heq
      simp [translate_args] at heq
      obtain ⟨-, h2, h3⟩ := heq
      subst h2; subst h3
      exact tprop_nil s
  · -- argument list, head fails
    intro a rest s e0 herr ih
    constructor
    · intro e heq
      simp [translate_args, herr] at heq
      subst heq
      exact ih.1 e0 herr
    · intro vs s2 ev heq
      simp [translate_args, herr] at heq
  · -- argument list, tail fails
    intro a rest s val s1 ev1 hok e0 herr ih ihl
    constructor
    · intro e heq
      simp [translate_args, hok, herr] at heq
      subst heq
      exact ihl.1 e0 herr
    · intro vs s2 ev heq
      simp [translate_args, hok, herr] at heq
  · -- argument list, both succeed
    intro a rest s val s1 ev1 hok argValues s2 ev2 hrest ih ihl
    constructor
    · intro e heq
      simp [translate_args, hok, hrest] at heq
    · intro vs s2a ev heq
      simp [translate_args, hok, hrest] at heq
      obtain ⟨-, h2, h3⟩ := heq
      subst h2; subst h3
      exact tprop_trans (ih.2 _ _ _ hok) (ihl.2 _ _ _ hrest)

/-! ## The scope lemma: check_expr against the lowering -/

/-- The correspondence between the checker environment and
jit.variables: a name is in scope exactly when it has a slot. -/
def Inv (env : List String) (vars : List (String × Nat)) : Prop :=
  ∀ n, n ∈ env ↔ (vars.lookup n).isSome

theorem inv_declare (int : Ty) (idx : Nat) (name : String)
    {env : List String} {vars : List (String × Nat)} (h : Inv env vars) :
    Inv (name :: env) (declare_variable int vars idx name).vars := by
  intro n
  unfold declare_variable
  by_cases hn : n = name
  · subst hn
    by_cases hs : (vars.lookup n).isSome
    · simp [hs]
    · simp [hs, List.lookup]
  · by_cases hs : (vars.lookup name).isSome
    · simp [hs, hn, h n]
    · have hbeq : (n == name) = false := by simp [hn]
      simp [hs, List.lookup, hbeq, hn, h n]

/-- The checker counterpart of a while instruction: the condition, then
the body statements. -/
def check_while (c : Instruction) (b : List Instruction)
    (env : List String) : Option (List String) :=
  match check_expr c env with
  | some env1 => check_list b env1
  | none => none

theorem check_expr_while (c : Instruction) (b : List Instruction)
    (env : List String) :
    check_expr (Instruction.whileBlock c b) env = check_while c b env := by
  rw [check_expr, check_while]

/-- The master scope lemma, by the same mutual functional induction: when
the checker rejects, the lowering raises some error; when the checker
accepts, the lowering never raises the undefined-variable abort, and on
success the checker environment still matches the variable table. -/
theorem translate_scope :
    (∀ i s, ∀ env, Inv env s.vars →
      (check_expr i env = none → ∃ e, translate_expr i s = .error e) ∧
      (∀ env2, check_expr i env = some env2 →
        (∀ n, translate_expr i s ≠ .error (Err.varNotDefined n)) ∧
        (∀ v s2 ev, translate_expr i s = .ok (v, s2, ev) → Inv env2 s2.vars))) ∧
    (∀ c b s, ∀ env, Inv env s.vars →
      (check_while c b env = none → ∃ e, translate_while_loop c b s = .error e) ∧
      (∀ env2, check_while c b env = some env2 →
        (∀ n, translate_while_loop c b s ≠ .error (Err.varNotDefined n)) ∧
        (∀ v s2 ev, translate_while_loop c b s = .ok (v, s2, ev) → Inv env2 s2.vars))) ∧
    (∀ l s, ∀ env, Inv env s.vars →
      (check_list l env = none → ∃ e, translate_list l s = .error e) ∧
      (∀ env2, check_list l env = some env2 →
        (∀ n, translate_list l s ≠ .error (Err.varNotDefined n)) ∧
        (∀ s2 ev, translate_list l s = .ok (s2, ev) → Inv env2 s2.vars))) ∧
    (∀ name args x s, ∀ env, Inv env s.vars →
      (check_list args env = none → ∃ e, translate_call name args x s = .error e) ∧
      (∀ env2, check_list args env = some env2 →
        (∀ n, translate_call name args x s ≠ .error (Err.varNotDefined n)) ∧
        (∀ v s2 ev, translate_call name args x s = .ok (v, s2, ev) → Inv env2 s2.vars))) ∧
    (∀ l s, ∀ env, Inv env s.vars →
      (check_list l env = none → ∃ e, translate_args l s = .error e) ∧
      (∀ env2, check_list l env = some env2 →
        (∀ n, translate_args l s ≠ .error (Err.varNotDefined n)) ∧
        (∀ vs s2 ev, translate_args l s = .ok (vs, s2, ev) → Inv env2 s2.vars))) := by
  apply translate_expr.mutual_induct
  · -- numeric literal, integral branch
    intro literal s h env hinv
    constructor
    · intro hchk
      simp [check_expr] at hchk
    · intro env2 hchk
      simp [check_expr] at hchk
      subst hchk
      constructor
      · intro n hc
        simp [translate_expr, h] at hc
      · intro v s2 ev heq
        simp [translate_expr, h] at heq
        obtain ⟨-, h2, -⟩ := heq
        subst h2
        exact hinv
  · -- numeric literal, float branch
    intro literal s h env hinv
    constructor
    · intro hchk
      simp [check_expr] at hchk
    · intro env2 hchk
      simp [check_expr] at hchk
      subst hchk
      constructor
      · intro n hc
        simp [translate_expr, h] at hc
      · intro v s2 ev heq
        simp [translate_expr, h] at heq
        obtain ⟨-, h2, -⟩ := heq
        subst h2
        exact hinv
  · -- string literal
    intro literal s env hinv
    constructor
    · intro hchk
      simp [check_expr] at hchk
    · intro env2 hchk
      simp [check_expr] at hchk
      subst hchk
      constructor
      · intro n hc
        simp [translate_expr, create_anonymous_string] at hc
      · intro v s2 ev heq
        simp [translate_expr, create_anonymous_string] at heq
        obtain ⟨-, h2, -⟩ := heq
        subst h2
        exact hinv
  · -- boolean literal
    intro b s env hinv
    constructor
    · intro hchk
      simp [check_expr] at hchk
    · intro env2 hchk
      simp [check_expr] at hchk
      subst hchk
      constructor
      · intro n hc
        simp [translate_expr] at hc
      · intro v s2 ev heq
        simp [translate_expr] at heq
        obtain ⟨-, h2, -⟩ := heq
        subst h2
        exact hinv
  · -- function call: delegate
    intro name args s ih env hinv
    have ihe := ih env hinv
    constructor
    · intro hchk
      simp only [check_expr] at hchk
      obtain ⟨e, he⟩ := ihe.1 hchk
      exact ⟨e, by simpa [translate_expr] using he⟩
    · intro env2 hchk
      simp only [check_expr] at hchk
      obtain ⟨hne, hko⟩ := ihe.2 env2 hchk
      constructor
      · intro n hc
        simp only [translate_expr] at hc
        exact hne n hc
      · intro v s2 ev heq
        simp only [translate_expr] at heq
        exact hko v s2 ev heq
  · -- variable reference, defined
    intro name s slot hlk env hinv
    have hmem : name ∈ env := (hinv name).mpr (by simp [hlk])
    constructor
    · intro hchk
      simp [check_expr, hmem] at hchk
    · intro env2 hchk
      simp [check_expr, hmem] at hchk
      subst hchk
      constructor
      · intro n hc
        simp [translate_expr, hlk] at hc
      · intro v s2 ev heq
        simp [translate_expr, hlk] at heq
        obtain ⟨-, h2, -⟩ := heq
        subst h2
        exact hinv
  · -- variable reference, undefined
    intro name s hlk env hinv
    have hmem : name ∉ env := by
      intro hc
      have := (hinv name).mp hc
      simp [hlk] at this
    constructor
    · intro hchk
      exact ⟨Err.varNotDefined name, by simp [translate_expr, hlk]⟩
    · intro env2 hchk
      simp [check_expr, hmem] at hchk
  · -- array
    intro items s env hinv
    constructor
    · intro hchk
      exact ⟨Err.notImplemented, by simp [translate_expr]⟩
    · intro env2 hchk
      constructor
      · intro n hc
        simp [translate_expr] at hc
      · intro v s2 ev heq
        simp [translate_expr] at heq
  · -- object
    intro fields s env hinv
    constructor
    · intro hchk
      exact ⟨Err.notImplemented, by simp [translate_expr]⟩
    · intro env2 hchk
      constructor
      · intro n hc
        simp [translate_expr] at hc
      · intro v s2 ev heq
        simp [translate_expr] at heq
  · -- variable declaration, initializer fails
    intro scope name value s d e0 herr ih env hinv
    have hd : d = declare_variable numTy s.vars 0 name := rfl
    rw [hd] at herr
    have hinv1 : Inv (name :: env)
        (declare_variable numTy s.vars 0 name).vars :=
      inv_declare numTy 0 name hinv
    have ihe := ih (name :: env) hinv1
    constructor
    · intro hchk
      exact ⟨e0, by simp [translate_expr, herr]⟩
    · intro env2 hchk
      simp only [check_expr] at hchk
      obtain ⟨hne, -⟩ := ihe.2 env2 hchk
      constructor
      · intro n hc
        simp [translate_expr, herr] at hc
        rw [hc] at herr
        exact hne n herr
      · intro v s2 ev heq
        simp [translate_expr, herr] at heq
  · -- variable declaration, initializer succeeds
    intro scope name value s d val s2 ev1 hok ih env hinv
    have hd : d = declare_variable numTy s.vars 0 name := rfl
    rw [hd] at hok
    have hinv1 : Inv (name :: env)
        (declare_variable numTy s.vars 0 name).vars :=
      inv_declare numTy 0 name hinv
    have ihe := ih (name :: env) hinv1
    constructor
    · intro hchk
      simp only [check_expr] at hchk
      obtain ⟨e, he⟩ := ihe.1 hchk
      rw [hok] at he
      exact absurd he (by simp)
    · intro env2 hchk
      simp only [check_expr] at hchk
      obtain ⟨-, hko⟩ := ihe.2 env2 hchk
      constructor
      · intro n hc
        simp [translate_expr, hok] at hc
      · intro v s2a ev heq
        simp [translate_expr, hok] at heq
        obtain ⟨-, h2, -⟩ := heq
        subst h2
        exact hko _ _ _ hok
  · -- while block: delegate
    intro condition body s ih env hinv
    have ihe := ih env hinv
    constructor
    · intro hchk
      rw [check_expr_while] at hchk
      obtain ⟨e, he⟩ := ihe.1 hchk
      exact ⟨e, by simpa [translate_expr] using he⟩
    · intro env2 hchk
      rw [check_expr_while] at hchk
      obtain ⟨hne, hko⟩ := ihe.2 env2 hchk
      constructor
      · intro n hc
        simp only [translate_expr] at hc
        exact hne n hc
      · intro v s2 ev heq
        simp only [translate_expr] at heq
        exact hko v s2 ev heq
  · -- while loop, condition fails
    intro condition loopBody s hh s0 e0 herr ih env hinv
    have hs0 : s0 = { s with nextBlock := s.nextBlock + 3 } := rfl
    rw [hs0] at herr
    have ihe := ih env hinv
    constructor
    · intro hchk
      exact ⟨e0, by simp [translate_while_loop, herr]⟩
    · intro env2 hchk
      unfold check_while at hchk
      constructor
      · intro n hc
        simp [translate_while_loop, herr] at hc
        cases hcc : check_expr condition env with
        | none => rw [hcc] at hchk; simp at hchk
        | some env1 =>
          rw [hcc] at hchk
          obtain ⟨hne, -⟩ := ihe.2 env1 hcc
          rw [hc] at herr
          exact hne n herr
      · intro v s2 ev heq
        simp [translate_while_loop, herr] at heq
  · -- while loop, body list fails
    intro condition loopBody s hh s0 val s1 ev1 hok e0 herr ihc ihl env hinv
    have hs0 : s0 = { s with nextBlock := s.nextBlock + 3 } := rfl
    rw [hs0] at hok
    have ihce := ihc env hinv
    constructor
    · intro hchk
      exact ⟨e0, by simp [translate_while_loop, hok, herr]⟩
    · intro env2 hchk
      unfold check_while at hchk
      constructor
      · intro n hc
        simp [translate_while_loop, hok, herr] at hc
        cases hcc : check_expr condition env with
        | none => rw [hcc] at hchk; simp at hchk
        | some env1 =>
          rw [hcc] at hchk
          obtain ⟨-, hko⟩ := ihce.2 env1 hcc
          have hinv1 : Inv env1 s1.vars := hko _ _ _ hok
          obtain ⟨hne, -⟩ := (ihl env1 hinv1).2 env2 hchk
          rw [hc] at herr
          exact hne n herr
      · intro v s2 ev heq
        simp [translate_while_loop, hok, herr] at heq
  · -- while loop, both succeed
    intro condition loopBody s hh s0 val s1 ev1 hok s2 ev2 hlist ihc ihl env hinv
    have hs0 : s0 = { s with nextBlock := s.nextBlock + 3 } := rfl
    rw [hs0] at hok
    have ihce := ihc env hinv
    constructor
    · intro hchk
      unfold check_while at hchk
      cases hcc : check_expr condition env with
      | none =>
        obtain ⟨e, he⟩ := ihce.1 hcc
        rw [hok] at he
        exact absurd he (by simp)
      | some env1 =>
        rw [hcc] at hchk
        obtain ⟨-, hko⟩ := ihce.2 env1 hcc
        have hinv1 : Inv env1 s1.vars := hko _ _ _ hok
        obtain ⟨e, he⟩ := (ihl env1 hinv1).1 hchk
        rw [hlist] at he
        exact absurd he (by simp)
    · intro env2 hchk
      unfold check_while at hchk
      constructor
      · intro n hc
        simp [translate_while_loop, hok, hlist] at hc
      · intro v s2a ev heq
        simp [translate_while_loop, hok, hlist] at heq
        obtain ⟨-, h2, -⟩ := heq
        subst h2
        cases hcc : check_expr condition env with
        | none => rw [hcc] at hchk; simp at hchk
        | some env1 =>
          rw [hcc] at hchk
          obtain ⟨-, hko⟩ := ihce.2 env1 hcc
          have hinv1 : Inv env1 s1.vars := hko _ _ _ hok
          exact ((ihl env1 hinv1).2 env2 hchk).2 _ _ hlist
  · -- statement list, empty
    intro s env hinv
    constructor
    · intro hchk
      simp [check_list] at hchk
    · intro env2 hchk
      simp [check_list] at hchk
      subst hchk
      constructor
      · intro n hc
        simp [translate_list] at hc
      · intro s2 ev heq
        simp [translate_list] at heq
        obtain ⟨h2, -⟩ := heq
        subst h2
        exact hinv
  · -- statement list, head fails
    intro a rest s e0 herr ih env hinv
    have ihe := ih env hinv
    constructor
    · intro hchk
      exact ⟨e0, by simp [translate_list, herr]⟩
    · intro env2 hchk
      rw [check_list] at hchk
      constructor
      · intro n hc
        simp [translate_list, herr] at hc
        cases hcc : check_expr a env with
        | none => rw [hcc] at hchk; simp at hchk
        | some env1 =>
          rw [hcc] at hchk
          obtain ⟨hne, -⟩ := ihe.2 env1 hcc
          rw [hc] at herr
          exact hne n herr
      · intro s2 ev heq
        simp [translate_list, herr] at heq
  · -- statement list, tail fails
    intro a rest s val s1 ev1 hok e0 herr ih ihl env hinv
    have ihe := ih env hinv
    constructor
    · intro hchk
      exact ⟨e0, by simp [translate_list, hok, herr]⟩
    · intro env2 hchk
      rw [check_list] at hchk
      constructor
      · intro n hc
        simp [translate_list, hok, herr] at hc
        cases hcc : check_expr a env with
        | none => rw [hcc] at hchk; simp at hchk
        | some env1 =>
          rw [hcc] at hchk
          obtain ⟨-, hko⟩ := ihe.2 env1 hcc
          have hinv1 : Inv env1 s1.vars := hko _ _ _ hok
          obtain ⟨hne, -⟩ := (ihl env1 hinv1).2 env2 hchk
          rw [hc] at herr
          exact hne n herr
      · intro s2 ev heq
        simp [translate_list, hok, herr] at heq
  · -- statement list, both succeed
    intro a rest s val s1 ev1 hok s2 ev2 hlist ih ihl env hinv
    have ihe := ih env hinv
    constructor
    · intro hchk
      rw [check_list] at hchk
      cases hcc : check_expr a env with
      | none =>
        obtain ⟨e, he⟩ := ihe.1 hcc
        rw [hok] at he
        exact absurd he (by simp)
      | some env1 =>
        rw [hcc] at hchk
        obtain ⟨-, hko⟩ := ihe.2 env1 hcc
        have hinv1 : Inv env1 s1.vars := hko _ _ _ hok
        obtain ⟨e, he⟩ := (ihl env1 hinv1).1 hchk
        rw [hlist] at he
        exact absurd he (by simp)
    · intro env2 hchk
      rw [check_list] at hchk
      constructor
      · intro n hc
        simp [translate_list, hok, hlist] at hc
      · intro s2a ev heq
        simp [translate_list, hok, hlist] at heq
        obtain ⟨h2, -⟩ := heq
        subst h2
        cases hcc : check_expr a env with
        | none => rw [hcc] at hchk; simp at hchk
        | some env1 =>
          rw [hcc] at hchk
          obtain ⟨-, hko⟩ := ihe.2 env1 hcc
          have hinv1 : Inv env1 s1.vars := hko _ _ _ hok
          exact ((ihl env1 hinv1).2 env2 hchk).2 _ _ hlist
  · -- call, argument lowering fails
    intro name args externFlag s e0 herr ih env hinv
    have ihe := ih env hinv
    constructor
    · intro hchk
      exact ⟨e0, by simp [translate_call, herr]⟩
    · intro env2 hchk
      obtain ⟨hne, -⟩ := ihe.2 env2 hchk
      constructor
      · intro n hc
        simp [translate_call, herr] at hc
        rw [hc] at herr
        exact hne n herr
      · intro v s2 ev heq
        simp [translate_call, herr] at heq
  · -- call, arguments succeed, first result exists
    intro name args externFlag s sg argValues s1 ev1 hargs callId results v0 hres ih env hinv
    have hr : results
        = (List.range sg.returns.length).map (Value.callResult callId) := rfl
    rw [hr] at hres
    have ihe := ih env hinv
    constructor
    · intro hchk
      obtain ⟨e, he⟩ := ihe.1 hchk
      rw [hargs] at he
      exact absurd he (by simp)
    · intro env2 hchk
      obtain ⟨-, hko⟩ := ihe.2 env2 hchk
      constructor
      · intro n hc
        simp [translate_call, hargs, hres] at hc
      · intro v s2 ev heq
        simp [translate_call, hargs, hres] at heq
        obtain ⟨-, h2, -⟩ := heq
        subst h2
        exact hko argValues s1 ev1 hargs
  · -- call, arguments succeed, first result missing: impossible
    intro name args externFlag s sg argValues s1 ev1 hargs callId results hres ih env hinv
    have hr : results
        = (List.range sg.returns.length).map (Value.callResult callId) := rfl
    have hsg : sg = (⟨args.map fun _ => numTy, [numTy]⟩ : Sig) := rfl
    rw [hr, hsg] at hres
    simp at hres
  · -- argument list, empty
    intro s env hinv
    constructor
    · intro hchk
      simp [check_list] at hchk
    · intro env2 hchk
      simp [check_list] at hchk
      subst hchk
      constructor
      · intro n hc
        simp [translate_args] at hc
      · intro vs s2 ev heq
        simp [translate_args] at heq
        obtain ⟨-, h2, -⟩ := heq
        subst h2
        exact hinv
  · -- argument list, head fails
    intro a rest s e0 herr ih env hinv
    have ihe := ih env hinv
    constructor
    · intro hchk
      exact ⟨e0, by simp [translate_args, herr]⟩
    · intro env2 hchk
      rw [check_list] at hchk
      constructor
      · intro n hc
        simp [translate_args, herr] at hc
        cases hcc : check_expr a env with
        | none => rw [hcc] at hchk; simp at hchk
        | some env1 =>
          rw [hcc] at hchk
          obtain ⟨hne, -⟩ := ihe.2 env1 hcc
          rw [hc] at herr
          exact hne n herr
      · intro vs s2 ev heq
        simp [translate_args, herr] at heq
  · -- argument list, tail fails
    intro a rest s val s1 ev1 hok e0 herr ih ihl env hinv
    have ihe := ih env hinv
    constructor
    · intro hchk
      exact ⟨e0, by simp [translate_args, hok, herr]⟩
    · intro env2 hchk
      rw [check_list] at hchk
      constructor
      · intro n hc
        simp [translate_args, hok, herr] at hc
        cases hcc : check_expr a env with
        | none => rw [hcc] at hchk; simp at hchk
        | some env1 =>
          rw [hcc] at hchk
          obtain ⟨-, hko⟩ := ihe.2 env1 hcc
          have hinv1 : Inv env1 s1.vars := hko _ _ _ hok
          obtain ⟨hne, -⟩ := (ihl env1 hinv1).2 env2 hchk
          rw [hc] at herr
          exact hne n herr
      · intro vs s2 ev heq
        simp [translate_args, hok, herr] at heq
  · -- argument list, both succeed
    intro a rest s val s1 ev1 hok argValues s2 ev2 hrest ih ihl env hinv
    have ihe := ih env hinv
    constructor
    · intro hchk
      rw [check_list] at hchk
      cases hcc : check_expr a env with
      | none =>
        obtain ⟨e, he⟩ := ihe.1 hcc
        rw [hok] at he
        exact absurd he (by simp)
      | some env1 =>
        rw [hcc] at hchk
        obtain ⟨-, hko⟩ := ihe.2 env1 hcc
        have hinv1 : Inv env1 s1.vars := hko _ _ _ hok
        obtain ⟨e, he⟩ := (ihl env1 hinv1).1 hchk
        rw [hrest] at he
        exact absurd he (by simp)
    · intro env2 hchk
      rw [check_list] at hchk
      constructor
      · intro n hc
        simp [translate_args, hok, hrest] at hc
      · intro vs s2a ev heq
        simp [translate_args, hok, hrest] at heq
        obtain ⟨-, h2, -⟩ := heq
        subst h2
        cases hcc : check_expr a env with
        | none => rw [hcc] at hchk; simp at hchk
        | some env1 =>
          rw [hcc] at hchk
          obtain ⟨-, hko⟩ := ihe.2 env1 hcc
          have hinv1 : Inv env1 s1.vars := hko _ _ _ hok
          exact ((ihl env1 hinv1).2 env2 hchk).2 _ _ _ hrest

/-! ## The claims -/

/-- Claim C2: lowering NumericLiteral(v) emits a 64-bit integer constant
exactly when trunc(v) equals v, and a 64-bit float constant otherwise;
the produced value is that constant. -/
theorem numeric_literal_classification (v : ℚ) (s : St) :
    ∃ val s2 ev, translate_expr (Instruction.numericLiteral v) s = .ok (val, s2, ev) ∧
      ((∃ n, val = Value.iconst Ty.i64 n) ↔ fTrunc v = v) ∧
      ((val = Value.f64const v) ↔ fTrunc v ≠ v) ∧
      ((∃ n, ev = [Event.iconst Ty.i64 n]) ↔ fTrunc v = v) ∧
      ((ev = [Event.f64const v]) ↔ fTrunc v ≠ v) := by
  by_cases h : fTrunc v = v
  · exact ⟨Value.iconst Ty.i64 (f64AsI64 v), s, [Event.iconst Ty.i64 (f64AsI64 v)],
      by simp [translate_expr, h], by simp [h], by simp [h], by simp [h], by simp [h]⟩
  · exact ⟨Value.f64const v, s, [Event.f64const v],
      by simp [translate_expr, h], by simp [h], by simp [h], by simp [h], by simp [h]⟩

/-- Claim C3, amended: the external-call discriminator is substring
containment of _ext, not the suffix; a containing name is declared as an
imported symbol whose name has every _ext occurrence removed, any other
name as a local symbol under the unchanged name.  The declaration is the
first builder call of the lowering of the call. -/
theorem extern_call_discriminator (name : String) (args : List Instruction)
    (s : St) (v : Value) (s2 : St) (ev : List Event)
    (hok : translate_expr (Instruction.functionCall name args) s = .ok (v, s2, ev)) :
    ∃ rest, ev =
      Event.declareFunc
        (if strContains name "_ext" then strReplace name "_ext" "" else name)
        (if strContains name "_ext" then Linkage.importLink else Linkage.localLink)
        ⟨args.map fun _ => numTy, [numTy]⟩ :: rest := by
  simp only [translate_expr, translate_call] at hok
  cases hta : translate_args args s with
  | error e =>
    rw [hta] at hok
    simp at hok
  | ok r =>
    obtain ⟨argValues, s1, ev1⟩ := r
    rw [hta] at hok
    simp at hok
    refine ⟨ev1 ++ [Event.callIns (if strContains name "_ext"
      then strReplace name "_ext" "" else name) argValues], ?_⟩
    rw [show (args.map fun _ => numTy) = List.replicate args.length numTy from
      List.map_const' args numTy]
    exact hok.2.2.symm

/-- Claim C3, counterexample to the claim as stated: get_extra does not
end with the suffix _ext, yet the code declares it as an imported symbol
(under the mangled name), because the code tests substring containment
and removes every occurrence. -/
theorem extern_call_discriminator_counterexample :
    strEndsWith "get_extra" "_ext" = false ∧
    strContains "get_extra" "_ext" = true ∧
    strReplace "get_extra" "_ext" "" = "getra" ∧
    translate_expr (Instruction.functionCall "get_extra" []) initState
      = .ok (Value.callResult 0 0, ⟨0, 0, 1, []⟩,
          [Event.declareFunc (strReplace "get_extra" "_ext" "")
              Linkage.importLink ⟨[], [Ty.i64]⟩,
            Event.callIns (strReplace "get_extra" "_ext" "") []]) := by
  refine ⟨rfl, rfl, by simp [strReplace, listReplace], ?_⟩
  simp [translate_expr, translate_call, translate_args, numTy, initState,
    show strContains "get_extra" "_ext" = true from rfl]

/-- Claim C3, witness: the amended theorem applied to the scenario call
puts_ext("hi"). -/
theorem extern_call_discriminator_witness :
    ∃ rest,
      [Event.declareFunc (strReplace "puts_ext" "_ext" "") Linkage.importLink
          ⟨[Ty.i64], [Ty.i64]⟩,
        Event.defineData 0 ("hi".push (Char.ofNat 0)), Event.symbolValue 0,
        Event.callIns (strReplace "puts_ext" "_ext" "") [Value.symbolValue 0]] =
      Event.declareFunc
        (if strContains "puts_ext" "_ext" then strReplace "puts_ext" "_ext" "" else "puts_ext")
        (if strContains "puts_ext" "_ext" then Linkage.importLink else Linkage.localLink)
        ⟨[Instruction.stringLiteral "hi"].map fun _ => numTy, [numTy]⟩ :: rest := by
  have heval : translate_expr (Instruction.functionCall "puts_ext"
      [Instruction.stringLiteral "hi"]) initState
      = .ok (Value.callResult 0 0, ⟨0, 1, 1, []⟩,
          [Event.declareFunc (strReplace "puts_ext" "_ext" "") Linkage.importLink
              ⟨[Ty.i64], [Ty.i64]⟩,
            Event.defineData 0 ("hi".push (Char.ofNat 0)), Event.symbolValue 0,
            Event.callIns (strReplace "puts_ext" "_ext" "") [Value.symbolValue 0]]) := by
    simp [translate_expr, translate_call, translate_args, create_anonymous_string,
      numTy, initState, show strContains "puts_ext" "_ext" = true from rfl]
  exact extern_call_discriminator "puts_ext" [Instruction.stringLiteral "hi"]
    initState _ _ _ heval

/-- Claim C4: the claim asks for dense per-function slot indices, but
translate_expr hands declare_variable a fresh zero counter at every
declaration, so every distinct variable name is assigned slot index 0;
two declarations with distinct names share the slot, violating
uniqueness (the intended shared counter exists only in the unused
declare_variables helper). -/
theorem variable_slots_all_zero :
    translate_list
      [Instruction.varDecl VariableScope.Let "x" (Instruction.booleanLiteral true),
        Instruction.varDecl VariableScope.Let "y" (Instruction.booleanLiteral true)]
      initState
      = .ok (⟨0, 0, 0, [("y", 0), ("x", 0)]⟩,
          [Event.declareVar 0 Ty.i64, Event.iconst Ty.i64 1,
            Event.defVar 0 (Value.iconst Ty.i64 1), Event.useVar 0,
            Event.declareVar 0 Ty.i64, Event.iconst Ty.i64 1,
            Event.defVar 0 (Value.iconst Ty.i64 1), Event.useVar 0]) ∧
    (⟨0, 0, 0, [("y", 0), ("x", 0)]⟩ : St).vars.lookup "x" = some 0 ∧
    (⟨0, 0, 0, [("y", 0), ("x", 0)]⟩ : St).vars.lookup "y" = some 0 := by
  refine ⟨?_, rfl, rfl⟩
  simp [translate_list, translate_expr, declare_variable, numTy, List.lookup, initState]

/-- Claim C5: lowering a while block creates the header, body and exit
blocks, jumps to and switches to the header, lowers the condition there,
emits a branch-if-zero to exit then a jump to body, seals body right
after switching to it, seals header and exit only after switching to
exit, seals each of the three blocks exactly once over the whole emitted
trace, and yields an integer zero constant. -/
theorem while_loop_lowering (condition : Instruction) (body : List Instruction)
    (s : St) (v : Value) (s2 : St) (ev : List Event)
    (hok : translate_while_loop condition body s = .ok (v, s2, ev)) :
    v = Value.iconst numTy 0 ∧
    ∃ cv s1 ev1 ev2,
      translate_expr condition { s with nextBlock := s.nextBlock + 3 } = .ok (cv, s1, ev1) ∧
      translate_list body s1 = .ok (s2, ev2) ∧
      ev = [Event.createBlock s.nextBlock, Event.createBlock (s.nextBlock + 1),
            Event.createBlock (s.nextBlock + 2), Event.jump s.nextBlock,
            Event.switchTo s.nextBlock]
          ++ ev1
          ++ [Event.brz cv (s.nextBlock + 2), Event.jump (s.nextBlock + 1),
              Event.switchTo (s.nextBlock + 1), Event.seal (s.nextBlock + 1)]
          ++ ev2
          ++ [Event.jump s.nextBlock, Event.switchTo (s.nextBlock + 2),
              Event.seal s.nextBlock, Event.seal (s.nextBlock + 2),
              Event.iconst numTy 0] ∧
      ev.count (Event.seal s.nextBlock) = 1 ∧
      ev.count (Event.seal (s.nextBlock + 1)) = 1 ∧
      ev.count (Event.seal (s.nextBlock + 2)) = 1 := by
  simp only [translate_while_loop] at hok
  cases htc : translate_expr condition { s with nextBlock := s.nextBlock + 3 } with
  | error e =>
    rw [htc] at hok
    simp at hok
  | ok r =>
    obtain ⟨cv, s1, ev1⟩ := r
    rw [htc] at hok
    simp only [] at hok
    cases htl : translate_list body s1 with
    | error e =>
      rw [htl] at hok
      simp at hok
    | ok r2 =>
      obtain ⟨s2a, ev2⟩ := r2
      rw [htl] at hok
      simp at hok
      obtain ⟨hv, hs2, hev⟩ := hok
      subst hv
      subst hs2
      subst hev
      have ht1 := (translate_trace.1 condition _).2 _ _ _ htc
      have ht2 := (translate_trace.2.2.1 body s1).2 _ _ htl
      have hm1 : s.nextBlock + 3 ≤ s1.nextBlock := ht1.1
      have hsl1 : ∀ b, Event.seal b ∈ ev1 → s.nextBlock + 3 ≤ b := ht1.2.1
      have hsl2 : ∀ b, Event.seal b ∈ ev2 → s1.nextBlock ≤ b := ht2.2.1
      have hn1 : ∀ k, k < s.nextBlock + 3 → Event.seal k ∉ ev1 := by
        intro k hk hmem
        have := hsl1 k hmem
        omega
      have hn2 : ∀ k, k < s.nextBlock + 3 → Event.seal k ∉ ev2 := by
        intro k hk hmem
        have := hsl2 k hmem
        omega
      refine ⟨rfl, cv, s1, ev1, ev2, rfl, htl, by simp, ?_, ?_, ?_⟩
      · simp [List.count_append, List.count_cons,
          List.count_eq_zero.mpr (hn1 s.nextBlock (by omega)),
          List.count_eq_zero.mpr (hn2 s.nextBlock (by omega))]
      · simp [List.count_append, List.count_cons,
          List.count_eq_zero.mpr (hn1 (s.nextBlock + 1) (by omega)),
          List.count_eq_zero.mpr (hn2 (s.nextBlock + 1) (by omega))]
      · simp [List.count_append, List.count_cons,
          List.count_eq_zero.mpr (hn1 (s.nextBlock + 2) (by omega)),
          List.count_eq_zero.mpr (hn2 (s.nextBlock + 2) (by omega))]

/-- Claim C5, witness: the loop while (true) {} lowered from a fresh
state. -/
theorem while_loop_lowering_witness :
    ∃ v s2 ev,
      translate_while_loop (Instruction.booleanLiteral true) [] initState
        = .ok (v, s2, ev) ∧
      v = Value.iconst numTy 0 ∧
      ev.count (Event.seal 0) = 1 ∧
      ev.count (Event.seal 1) = 1 ∧
      ev.count (Event.seal 2) = 1 := by
  have heval : translate_while_loop (Instruction.booleanLiteral true) [] initState
      = .ok (Value.iconst Ty.i64 0, ⟨3, 0, 0, []⟩,
          [Event.createBlock 0, Event.createBlock 1, Event.createBlock 2,
            Event.jump 0, Event.switchTo 0, Event.iconst Ty.i64 1,
            Event.brz (Value.iconst Ty.i64 1) 2, Event.jump 1, Event.switchTo 1,
            Event.seal 1, Event.jump 0, Event.switchTo 2, Event.seal 0,
            Event.seal 2, Event.iconst Ty.i64 0]) := by
    simp [translate_while_loop, translate_expr, translate_list, numTy, initState]
  have h := while_loop_lowering (Instruction.booleanLiteral true) [] initState
    _ _ _ heval
  obtain ⟨hv, cv, s1, ev1, ev2, -, -, -, hc0, hc1, hc2⟩ := h
  exact ⟨_, _, _, heval, hv, hc0, hc1, hc2⟩

/-- Claim C6: compile creates a single entry block, appends the (empty)
function parameters to it, switches to it and seals it immediately,
lowers the top-level instructions in order, then emits iconst 0 and a
return of it and declares main for export; the entry block is created
and sealed exactly once, and the only return instruction of the whole
trace returns the 64-bit integer constant 0. -/
theorem compile_entry_and_return (ast : List Instruction) (s : St)
    (s2 : St) (ev : List Event) (hok : compile ast s = .ok (s2, ev)) :
    ∃ evT, translate_list ast { s with nextBlock := s.nextBlock + 1 } = .ok (s2, evT) ∧
      ev = [Event.createBlock s.nextBlock, Event.appendBlockParams s.nextBlock,
            Event.switchTo s.nextBlock, Event.seal s.nextBlock]
          ++ evT
          ++ [Event.iconst Ty.i64 0, Event.returnIns [Value.iconst Ty.i64 0],
              Event.declareFunc "main" Linkage.exportLink mainSig] ∧
      ev.count (Event.createBlock s.nextBlock) = 1 ∧
      ev.count (Event.seal s.nextBlock) = 1 ∧
      (∀ vs, Event.returnIns vs ∈ ev → vs = [Value.iconst Ty.i64 0]) := by
  simp only [compile] at hok
  cases htl : translate_list ast { s with nextBlock := s.nextBlock + 1 } with
  | error e =>
    rw [htl] at hok
    simp at hok
  | ok r =>
    obtain ⟨s2a, evT⟩ := r
    rw [htl] at hok
    simp at hok
    obtain ⟨hs2, hev⟩ := hok
    subst hs2
    subst hev
    have ht := (translate_trace.2.2.1 ast _).2 _ _ htl
    have hm : s.nextBlock + 1 ≤ s2a.nextBlock := ht.1
    have hsl : ∀ b, Event.seal b ∈ evT → s.nextBlock + 1 ≤ b := ht.2.1
    have hcr : ∀ b, Event.createBlock b ∈ evT → s.nextBlock + 1 ≤ b := ht.2.2.1
    have hrt : ∀ vs, Event.returnIns vs ∉ evT := ht.2.2.2
    have hnsl : Event.seal s.nextBlock ∉ evT := by
      intro hmem
      have := hsl _ hmem
      omega
    have hncr : Event.createBlock s.nextBlock ∉ evT := by
      intro hmem
      have := hcr _ hmem
      omega
    refine ⟨evT, rfl, by simp, ?_, ?_, ?_⟩
    · simp [List.count_append, List.count_cons, List.count_eq_zero.mpr hncr]
    · simp [List.count_append, List.count_cons, List.count_eq_zero.mpr hnsl]
    · intro vs hmem
      simp [List.mem_append] at hmem
      rcases hmem with h | h
      · exact absurd h (hrt vs)
      · exact h

/-- Claim C6, witness: compiling the empty program from a fresh state. -/
theorem compile_entry_and_return_witness :
    ∃ s2 ev, compile [] initState = .ok (s2, ev) ∧
      ev.count (Event.createBlock 0) = 1 ∧
      ev.count (Event.seal 0) = 1 ∧
      (∀ vs, Event.returnIns vs ∈ ev → vs = [Value.iconst Ty.i64 0]) := by
  have heval : compile [] initState
      = .ok (⟨1, 0, 0, []⟩,
          [Event.createBlock 0, Event.appendBlockParams 0, Event.switchTo 0,
            Event.seal 0, Event.iconst Ty.i64 0,
            Event.returnIns [Value.iconst Ty.i64 0],
            Event.declareFunc "main" Linkage.exportLink mainSig]) := by
    simp [compile, translate_list, initState]
  have h := compile_entry_and_return [] initState _ _ heval
  obtain ⟨evT, -, -, hc, hs, hr⟩ := h
  exact ⟨_, _, heval, hc, hs, hr⟩

/-- Claim C7: an instruction sequence in which some variable reference
is not preceded, in the order the builder walks the tree, by a
declaration of that name is rejected by compile with an error; when
every reference is preceded by a declaration, the undefined-variable
branch is never taken. -/
theorem variable_reference_scoping (ast : List Instruction) :
    (check_list ast [] = none → ∃ e, compile ast initState = .error e) ∧
    (∀ env2, check_list ast [] = some env2 →
      ∀ n, compile ast initState ≠ .error (Err.varNotDefined n)) := by
  have hinv : Inv [] ((⟨1, 0, 0, []⟩ : St).vars) := by
    intro n
    simp [List.lookup]
  have h := translate_scope.2.2.1 ast (⟨1, 0, 0, []⟩ : St) [] hinv
  constructor
  · intro hchk
    obtain ⟨e, he⟩ := h.1 hchk
    refine ⟨e, ?_⟩
    simp [compile, initState, he]
  · intro env2 hchk n hc
    simp only [compile, initState] at hc
    cases htl : translate_list ast (⟨1, 0, 0, []⟩ : St) with
    | error e =>
      rw [htl] at hc
      simp at hc
      subst hc
      exact (h.2 env2 hchk).1 n htl
    | ok r =>
      rw [htl] at hc
      simp at hc

/-- Claim C7, witness: a lone reference to x is rejected; declaring x
first makes the undefined-variable branch unreachable. -/
theorem variable_reference_scoping_witness :
    (∃ e, compile [Instruction.variableReference "x"] initState = .error e) ∧
    (∀ n, compile
        [Instruction.varDecl VariableScope.Let "x" (Instruction.booleanLiteral true),
          Instruction.variableReference "x"] initState
      ≠ .error (Err.varNotDefined n)) := by
  constructor
  · exact (variable_reference_scoping [Instruction.variableReference "x"]).1
      (by simp [check_list, check_expr])
  · exact (variable_reference_scoping
      [Instruction.varDecl VariableScope.Let "x" (Instruction.booleanLiteral true),
        Instruction.variableReference "x"]).2 ["x"]
      (by simp [check_list, check_expr])

/-- Claim C10: the signature synthesized by translate_call always has
exactly one return, so the read of the first call result is always in
bounds: the lowering never raises the modelled out-of-bounds abort, and
on success the produced value is the first result of the emitted call,
with the callee declared under the single-return all-pointer
signature. -/
theorem translate_call_single_result (name : String) (args : List Instruction)
    (externFlag : Bool) (s : St) :
    translate_call name args externFlag s ≠ .error Err.callResultOOB ∧
    (∀ v s2 ev, translate_call name args externFlag s = .ok (v, s2, ev) →
      (∃ callId, v = Value.callResult callId 0) ∧
      ∃ nm link rest, ev =
        Event.declareFunc nm link ⟨args.map fun _ => numTy, [numTy]⟩ :: rest) := by
  constructor
  · intro hc
    have := (translate_trace.2.2.2.1 name args externFlag s).1 _ hc
    rcases this with h | ⟨n, h⟩ <;> simp at h
  · intro v s2 ev hok
    simp only [translate_call] at hok
    cases hta : translate_args args s with
    | error e =>
      rw [hta] at hok
      simp at hok
    | ok r =>
      obtain ⟨argValues, s1, ev1⟩ := r
      rw [hta] at hok
      simp at hok
      obtain ⟨hv, -, hev⟩ := hok
      refine ⟨⟨s1.nextCall, hv.symm⟩,
        (if externFlag then strReplace name "_ext" "" else name),
        (if externFlag then Linkage.importLink else Linkage.localLink),
        ev1 ++ [Event.callIns
          (if externFlag then strReplace name "_ext" "" else name) argValues], ?_⟩
      rw [show (args.map fun _ => numTy) = List.replicate args.length numTy from
        List.map_const' args numTy]
      exact hev.symm

/-- Claim C10, witness: a local zero-argument call from a fresh state. -/
theorem translate_call_single_result_witness :
    (∃ callId, Value.callResult 0 0 = Value.callResult callId 0) ∧
    (∃ nm link rest,
      [Event.declareFunc "f" Linkage.localLink ⟨[], [Ty.i64]⟩, Event.callIns "f" []]
        = Event.declareFunc nm link ⟨[], [numTy]⟩ :: rest) := by
  have heval : translate_call "f" [] false initState
      = .ok (Value.callResult 0 0, ⟨0, 0, 1, []⟩,
          [Event.declareFunc "f" Linkage.localLink ⟨[], [Ty.i64]⟩,
            Event.callIns "f" []]) := by
    simp [translate_call, translate_args, numTy, initState]
  exact (translate_call_single_result "f" [] false initState).2 _ _ _ heval

/-- Claim C1 (code bug): the top-level production of parser() accepts
only while blocks, because the expression alternative is commented out
in the source (line 226), so the scenario input does not parse at all
and parse yields no tree — even though the expression parser value()
produces exactly the FunctionCall that the claim, the spec grammar and
the test test_console_log in the repository expect. -/
theorem console_log_parse_fails :
    parse "console.log(\"Hello world\")" = none ∧
    valueP 30 "console.log(\"Hello world\")".data
      = some (Instruction.functionCall "console.log"
          [Instruction.stringLiteral "Hello world"], []) :=
  ⟨rfl, rfl⟩

/-- Claim C8, counterexample: the Display form of the call f("hi") is
f(hi) — the string literal prints without quotes and arguments print
without separators — and the top-level parser accepts no expression at
all, so re-parsing the printed text yields no tree, not the original
instruction. -/
theorem print_parse_roundtrip_counterexample :
    fmt (Instruction.functionCall "f" [Instruction.stringLiteral "hi"]) = some "f(hi)" ∧
    parse "f(hi)" = none := by
  constructor
  · simp [fmt, fmtArgs]
  · rfl

/-- Claim C8, amended: the printed form of a boolean literal re-parses
to the same instruction through the expression parser value(); nothing
round-trips through the top-level parse, which accepts only while
blocks. -/
theorem print_parse_roundtrip_amended (b : Bool) :
    ∃ out, fmt (Instruction.booleanLiteral b) = some out ∧
      valueP (out.length + 1) out.data
        = some (Instruction.booleanLiteral b, []) ∧
      parse out = none := by
  cases b
  · exact ⟨"false", by simp [fmt], rfl, rfl⟩
  · exact ⟨"true", by simp [fmt], rfl, rfl⟩

/-- Claim C9, counterexample: a string opened with a double quote and
closed with a single quote is accepted as a string literal, because each
side of delimited_by(quote, quote) independently accepts either quote
character. -/
theorem string_quote_matching_counterexample :
    valueP 5 ('"' :: 'h' :: 'i' :: '\'' :: [])
      = some (Instruction.stringLiteral "hi", []) :=
  rfl

/-- The repetition inside the string combinator consumes exactly the
plain body characters and stops at the first quote character. -/
theorem manyGo_strBody (q2 : Char) (rest : List Char)
    (hq2f : strBodyChar q2 = false) (hq2b : q2 ≠ '\\') :
    ∀ (body : List Char) (fuel : Nat), body.length < fuel →
      (∀ c ∈ body, strBodyChar c = true) →
      manyGo (pOr (filterP strBodyChar) escapeP) fuel (body ++ q2 :: rest)
        = (body, q2 :: rest) := by
  intro body
  induction body with
  | nil =>
    intro fuel hf hb
    cases fuel with
    | zero => omega
    | succ f =>
      have hp : (pOr (filterP strBodyChar) escapeP) (q2 :: rest) = none := by
        simp [pOr, filterP, hq2f, escapeP, ignoreThen, pmap, pThen, just, hq2b,
          Option.orElse]
      simp [manyGo, hp]
  | cons c cs ih =>
    intro fuel hf hb
    cases fuel with
    | zero => simp at hf
    | succ f =>
      have hc : strBodyChar c = true := hb c (by simp)
      have hp : (pOr (filterP strBodyChar) escapeP) (c :: (cs ++ q2 :: rest))
          = some (c, cs ++ q2 :: rest) := by
        simp [pOr, filterP, hc, Option.orElse]
      have hrec := ih f (by simp at hf; omega) (fun d hd => hb d (by simp [hd]))
      simp [manyGo, hp, hrec]

/-- Claim C9, amended: the two delimiters of a string literal are
independent: any pair of quote characters delimits, matching or not, and
the body in between is the collected string. -/
theorem string_quote_independent (q1 q2 : Char) (body rest : List Char)
    (hq1 : q1 = '"' ∨ q1 = '\'')
    (hq2 : q2 = '"' ∨ q2 = '\'')
    (hbody : ∀ c ∈ body, strBodyChar c = true) :
    stringRawP (q1 :: (body ++ q2 :: rest)) = some (String.mk body, rest) := by
  have hq2f : strBodyChar q2 = false := by
    rcases hq2 with h | h <;> subst h <;> rfl
  have hq2b : q2 ≠ '\\' := by
    rcases hq2 with h | h <;> subst h <;> decide
  have hq1q : quoteP (q1 :: (body ++ q2 :: rest)) = some (q1, body ++ q2 :: rest) := by
    rcases hq1 with h | h <;> subst h <;> simp [quoteP, pOr, just, Option.orElse]
  have hq2q : quoteP (q2 :: rest) = some (q2, rest) := by
    rcases hq2 with h | h <;> subst h <;> simp [quoteP, pOr, just, Option.orElse]
  have hmany : manyP (pOr (filterP strBodyChar) escapeP) (body ++ q2 :: rest)
      = some (body, q2 :: rest) := by
    simp only [manyP]
    rw [manyGo_strBody q2 rest hq2f hq2b body (body ++ q2 :: rest).length
      (by simp) hbody]
  simp [stringRawP, delimitedBy, ignoreThen, thenIgnore, pThen, pmap,
    hq1q, hmany, hq2q]

/-- Claim C9, witness: the amended theorem at the mismatched pair, a
double quote opening and a single quote closing. -/
theorem string_quote_independent_witness :
    stringRawP ('"' :: (['h', 'i'] ++ '\'' :: [])) = some (String.mk ['h', 'i'], []) :=
  string_quote_independent '"' '\'' ['h', 'i'] []
    (Or.inl rfl) (Or.inr rfl) (by decide)

end Trippy
